import Mathlib

/-!
# my_point_cloud_reader.cpp : command line, CSV ingestion and the order of tree calls

A shallow embedding of `sensor_pickle_to_octomap-main/my_point_cloud_reader.cpp`:
the constructor of `Command_Line_Argument_Parser` and `main`.

* `std::string` and C strings are lists of characters (`Str`).
* `std::map<std::string, std::string>` is an association list with unique keys
  (`StrMap`); the program never iterates over the map, so the key order of the
  C++ container is not observable.
* `std::stringstream` / `std::ifstream` are an unread buffer plus the `eofbit`
  and `failbit` flags (`IStream`), with `std::getline` written out.
* The C++ standard library function `std::stof`, the file system and the octomap
  library are not part of the repository: `main` takes them as a `World`.
  `refWorld` is one concrete world, used to run the program on explicit inputs.
* A run of `main` is the list of its externally visible actions (`Event`) and the
  way it ended (`Outcome`).
-/

set_option autoImplicit false

namespace PointCloudReader

/-! ## Strings and the flag map -/

/-- Characters of a `std::string` (or of a C string, up to its terminating NUL). -/
abbrev Str := List Char

/-- C string indexing `s[i]`: the position after the last character holds the
terminating NUL. -/
def cstrAt (s : Str) (i : Nat) : Char := s.getD i '\x00'

/-- Contents of a `std::map<std::string, std::string>`. -/
abbrev StrMap := List (Str × Str)

namespace StrMap

/-- Lookup, as in `std::map::find`. -/
def find : StrMap → Str → Option Str
  | [], _ => none
  | (k, v) :: m, key => if k = key then some v else find m key

/-- Result of `std::map::insert`: an entry whose key is already present is left as it is. -/
def insert (m : StrMap) (key value : Str) : StrMap :=
  match find m key with
  | some _ => m
  | none => m ++ [(key, value)]

/-- Value of `m[key]` (`std::map::operator[]`): the stored value, or a default
constructed (empty) string for an absent key. The C++ operator also stores that
empty string under the key, which changes no later `m[key]`. -/
def index (m : StrMap) (key : Str) : Str := (find m key).getD []

/-- Keys of the map. -/
def keys (m : StrMap) : List Str := m.map Prod.fst

/-- Values of the map. -/
def values (m : StrMap) : List Str := m.map Prod.snd

end StrMap

/-! ## Command_Line_Argument_Parser (lines 25-76) -/

/-- Data members of `class Command_Line_Argument_Parser`; `usage` is never assigned. -/
structure Command_Line_Argument_Parser where
  command : Str
  usage : Str
  lone_arguments : List Str
  flag_arguments : StrMap
  deriving DecidableEq, Repr

namespace Command_Line_Argument_Parser

/-- Body of the `for` loop of the constructor (lines 46-71). The first argument is
`argv[arg_index ..]`, the arguments not yet visited; `next_arg_index < argc` holds
exactly when one more argument follows, and `arg_index++` inside the body skips it. -/
def scan : List Str → Command_Line_Argument_Parser → Command_Line_Argument_Parser
  | [], p => p
  | arg :: rest, p =>
    if cstrAt arg 0 = '-' then
      if cstrAt arg 1 = '\x00' then
        scan rest { p with flag_arguments := p.flag_arguments.insert arg [] }
      else
        match rest with
        | next :: rest' =>
          scan rest' { p with flag_arguments := p.flag_arguments.insert arg next }
        | [] => p
    else
      scan rest { p with lone_arguments := p.lone_arguments ++ [arg] }

/-- Constructor `Command_Line_Argument_Parser(argc, argv)`, with `argc = argv.length`.
`command = argv[0]`, then the loop runs over `argv[1 ..]`. (For an empty `argv` the
C++ code reads a null `argv[0]`; the model takes the empty string.) -/
def construct (argv : List Str) : Command_Line_Argument_Parser :=
  scan argv.tail
    { command := argv.headD [], usage := [], lone_arguments := [], flag_arguments := [] }

/-- Accessor `get_command`. -/
def get_command (p : Command_Line_Argument_Parser) : Str := p.command

/-- Accessor `get_lone_arguments`. -/
def get_lone_arguments (p : Command_Line_Argument_Parser) : List Str := p.lone_arguments

/-- Accessor `get_flag_arguments`. -/
def get_flag_arguments (p : Command_Line_Argument_Parser) : StrMap := p.flag_arguments

end Command_Line_Argument_Parser

/-! ## Input streams and std::getline -/

/-- State of an input stream: the characters not yet extracted and two of the
state flags (`badbit` is never set by the operations used here). -/
structure IStream where
  buf : Str
  eofbit : Bool
  failbit : Bool
  deriving DecidableEq, Repr

namespace IStream

/-- A stream freshly constructed over a string (or over an opened file): no flag is set. -/
def ofString (s : Str) : IStream := { buf := s, eofbit := false, failbit := false }

/-- The member `good()`: no state flag is set. -/
def good (s : IStream) : Bool := !s.eofbit && !s.failbit

/-- Characters up to the first `delim`; the second component is what follows the
delimiter, or `none` when the input ends before a delimiter is found. -/
def takeUntil (delim : Char) : Str → Str × Option Str
  | [] => ([], none)
  | c :: cs =>
    if c = delim then ([], some cs)
    else ((c :: (takeUntil delim cs).1), (takeUntil delim cs).2)

/-- Model of `std::getline(is, str, delim)`. When the stream is not `good()` the
sentry sets `failbit` and `str` is left as it was. Otherwise `str` is erased and
characters are extracted up to and including the delimiter (which is not stored);
reaching the end of the input sets `eofbit`, and extracting nothing at all sets
`failbit` too. -/
def getline (is : IStream) (str : Str) (delim : Char) : IStream × Str :=
  if is.good then
    match takeUntil delim is.buf with
    | (taken, some rest) => ({ is with buf := rest }, taken)
    | (taken, none) =>
      ({ buf := [], eofbit := true, failbit := taken.isEmpty }, taken)
  else
    ({ is with failbit := true }, str)

end IStream

/-! ## The world outside the repository -/

/-- Value of a `float`. `num neg mant radix exp` stands for the `float` nearest to
`(-1)^neg * mant * radix^exp`; the rounding to binary32 is not modelled. -/
inductive Flt where
  | num (neg : Bool) (mant : Nat) (radix : Nat) (exp : Int)
  | inf (neg : Bool)
  | nan (neg : Bool)
  deriving DecidableEq, Repr

/-- The predicate `std::isfinite`. -/
def Flt.isFinite : Flt → Bool
  | .num _ _ _ _ => true
  | .inf _ => false
  | .nan _ => false

/-- The two exceptions `std::stof` throws. -/
inductive StofFault where
  | invalid_argument
  | out_of_range
  deriving DecidableEq, Repr

/-- An `octomap::point3d`. -/
abbrev Point3d := Flt × Flt × Flt

/-- What `main` uses and the repository does not define. `T` is the state of an
`octomap::OcTreeStamped`.
* `stof s` is the value `std::stof(s)` returns, or the exception it throws;
* `readFile path` is the content `std::ifstream` reads from `path`, `none` when
  the stream fails to open;
* `newTree` is the tree `OcTreeStamped tree(10)` constructs;
* `updateNode t p occupied` is the tree after `t.updateNode(p, occupied)` and
  whether the call returned a node (`false`: it returned `NULL`). -/
structure World (T : Type) where
  stof : Str → Except StofFault Flt
  readFile : Str → Option Str
  newTree : T
  updateNode : T → Point3d → Bool → T × Bool

/-! ## Runs of main -/

/-- Externally visible actions of `main`, in program order. `updateNode` records the
arguments of the call and whether the library returned a node. -/
inductive Event where
  | cout (text : Str)
  | ifstream (path : Str)
  | updateNode (p : Point3d) (occupied : Bool) (returnedNode : Bool)
  | toMaxLikelihood
  | updateInnerOccupancy
  | writeBinary (path : Str)
  deriving DecidableEq, Repr

/-- How a run ends: `main` returns a status, or an exception thrown by `std::stof`
leaves `main` uncaught (`std::terminate`). `outOfFuel` is an artefact of the
bounded loop of the model; `main_never_outOfFuel` shows it does not occur. -/
inductive Outcome where
  | returned (status : Int)
  | terminated (fault : StofFault)
  | outOfFuel
  deriving DecidableEq, Repr

/-- A run: its actions and its end. -/
structure Run where
  events : List Event
  outcome : Outcome
  deriving DecidableEq, Repr

/-- What the body of the `while` loop does with one line, up to the construction of
`point3d end(x,y,z)`. -/
inductive LineResult where
  | exit (message : Str) (status : Int)
  | fault (f : StofFault)
  | point (p : Point3d)
  deriving DecidableEq, Repr

/-- Lines 105-142: the body of the `while` loop for one `line`. -/
def parseLine (stof : Str → Except StofFault Flt) (line : Str) : LineResult :=
  let ss := IStream.ofString line
  if !ss.good then .exit "Could not get x\n".toList (-2)
  else
    let r1 := ss.getline [] ','
    match stof r1.2 with
    | .error f => .fault f
    | .ok x =>
      if !r1.1.good then .exit "Could not get y\n".toList (-3)
      else
        let r2 := r1.1.getline r1.2 ','
        match stof r2.2 with
        | .error f => .fault f
        | .ok y =>
          if !r2.1.good then .exit "Could not get z\n".toList (-4)
          else
            let r3 := r2.1.getline r2.2 '\n'
            match stof r3.2 with
            | .error f => .fault f
            | .ok z => .point (x, y, z)

/-- Lines 148-157: what follows the loop. Falling off the end of `main` returns 0. -/
def finish (out : Str) : Run :=
  { events := [.toMaxLikelihood, .updateInnerOccupancy, .writeBinary out, .cout "\n".toList],
    outcome := .returned 0 }

/-- Lines 103-157: the `while ( std::getline(infile,line) )` loop and what follows it.
`fuel` bounds the number of iterations. -/
def ingestLoop {T : Type} (w : World T) (out : Str) :
    Nat → IStream → Str → T → Run
  | 0, _, _, _ => { events := [], outcome := .outOfFuel }
  | fuel + 1, infile, line, tree =>
    let r := infile.getline line '\n'
    if r.1.failbit then finish out
    else
      match parseLine w.stof r.2 with
      | .exit message status => { events := [.cout message], outcome := .returned status }
      | .fault f => { events := [], outcome := .terminated f }
      | .point p =>
        let u := w.updateNode tree p true
        let rest := ingestLoop w out fuel r.1 r.2 u.1
        { events := .updateNode p true u.2 :: rest.events, outcome := rest.outcome }

/-- The flag `--xyz_csv`. -/
def xyzFlag : Str := "--xyz_csv".toList

/-- The flag `--out`. -/
def outFlag : Str := "--out".toList

/-- Text printed after the command name on a failed argument check (line 88). -/
def usageText : Str := " --xyz_csv <xyz csv point cloud file> --out <output octomap file>\n".toList

/-- Lines 92-157: `main` after the argument check, reading `inPath` and writing `outPath`. -/
def ingest {T : Type} (w : World T) (inPath outPath : Str) : Run :=
  match w.readFile inPath with
  | none => { events := [.ifstream inPath, .cout "could not open file\n".toList],
              outcome := .returned (-1) }
  | some content =>
    let header := (IStream.ofString content).getline [] '\n'
    let rest := ingestLoop w outPath (content.length + 1) header.1 header.2 w.newTree
    { events := .ifstream inPath :: rest.events, outcome := rest.outcome }

/-- The function `main` (lines 78-157), with `argc = argv.length`. -/
def main {T : Type} (w : World T) (argv : List Str) : Run :=
  let parser := Command_Line_Argument_Parser.construct argv
  let flag_args := parser.get_flag_arguments
  if (flag_args.index xyzFlag).isEmpty || (flag_args.index outFlag).isEmpty then
    { events := [.cout (parser.get_command ++ usageText)], outcome := .returned (-1) }
  else
    ingest w (flag_args.index xyzFlag) (flag_args.index outFlag)

/-! ## A reference world

`refStof` follows the grammar of C `strtof` in the "C" locale, which `std::stof`
calls: leading white space, an optional sign, then a decimal or hexadecimal
floating constant, `inf`/`infinity` or `nan`/`nan(...)` in any letter case; what
follows the number is ignored. `std::stof` throws `std::invalid_argument` when no
conversion is possible and `std::out_of_range` when `strtof` reports `ERANGE`. -/

/-- The predicate `isspace` in the "C" locale. -/
def isSpaceChar (c : Char) : Bool :=
  c = ' ' || c = '\t' || c = '\n' || c = '\x0b' || c = '\x0c' || c = '\r'

/-- Value of a decimal digit. -/
def decDigit (c : Char) : Option Nat :=
  if 48 ≤ c.toNat ∧ c.toNat ≤ 57 then some (c.toNat - 48) else none

/-- Value of a hexadecimal digit. -/
def hexDigit (c : Char) : Option Nat :=
  if 48 ≤ c.toNat ∧ c.toNat ≤ 57 then some (c.toNat - 48)
  else if 97 ≤ c.toNat ∧ c.toNat ≤ 102 then some (c.toNat - 87)
  else if 65 ≤ c.toNat ∧ c.toNat ≤ 70 then some (c.toNat - 55)
  else none

/-- Reads the longest run of digits: the accumulated value, the number of digits
read and the unread rest. -/
def scanDigits (digit : Char → Option Nat) (radix : Nat) : Str → Nat → Nat → Nat × Nat × Str
  | [], acc, n => (acc, n, [])
  | c :: cs, acc, n =>
    match digit c with
    | some d => scanDigits digit radix cs (acc * radix + d) (n + 1)
    | none => (acc, n, c :: cs)

/-- A digit sequence with an optional radix point and at least one digit: all the
digits read as one number, the count of digits after the point, the unread rest. -/
def scanMantissa (digit : Char → Option Nat) (radix : Nat) (s : Str) : Option (Nat × Nat × Str) :=
  let whole := scanDigits digit radix s 0 0
  match whole.2.2 with
  | '.' :: r =>
    let frac := scanDigits digit radix r whole.1 0
    if whole.2.1 + frac.2.1 = 0 then none else some (frac.1, frac.2.1, frac.2.2)
  | _ => if whole.2.1 = 0 then none else some (whole.1, 0, whole.2.2)

/-- An optional exponent part introduced by `lo` or `up`: a sign and at least one
decimal digit. An incomplete exponent part is not part of the number. -/
def scanExponent (lo up : Char) (s : Str) : Int :=
  match s with
  | [] => 0
  | c :: r =>
    if c = lo ∨ c = up then
      let signed : Bool × Str :=
        match r with
        | '-' :: t => (true, t)
        | '+' :: t => (false, t)
        | _ => (false, r)
      let digits := scanDigits decDigit 10 signed.2 0 0
      if digits.2.1 = 0 then 0
      else if signed.1 then - (digits.1 : Int) else (digits.1 : Int)
    else 0

/-- Whether `s` starts with `word` (given in lower case), ignoring the case of
letters; returns the rest. -/
def dropWord : Str → Str → Option Str
  | [], s => some s
  | _ :: _, [] => none
  | w :: ws, c :: cs =>
    if c = w ∨ (97 ≤ w.toNat ∧ w.toNat ≤ 122 ∧ c.toNat + 32 = w.toNat) then dropWord ws cs
    else none

/-- `ERANGE` by overflow: the magnitude `mant * radix^exp` rounds to a binary32
beyond `FLT_MAX`, that is, it is at least `2^128 - 2^103`. -/
def fltOverflows (mant radix : Nat) : Int → Bool
  | .ofNat k => decide (2 ^ 128 - 2 ^ 103 ≤ mant * radix ^ k)
  | .negSucc k => decide ((2 ^ 128 - 2 ^ 103) * radix ^ (k + 1) ≤ mant)

/-- `ERANGE` by underflow, as glibc reports it: the magnitude is not zero, lies
below `FLT_MIN = 2^-126` and is not a multiple of `2^-149` (the result is
subnormal and inexact). -/
def fltUnderflows (mant radix : Nat) : Int → Bool
  | .ofNat _ => false
  | .negSucc k =>
    decide (mant ≠ 0 ∧ mant * 2 ^ 126 < radix ^ (k + 1) ∧ (mant * 2 ^ 149) % radix ^ (k + 1) ≠ 0)

/-- A finite constant after the range check of `strtof`. -/
def rangeChecked (neg : Bool) (mant radix : Nat) (exp : Int) : Except StofFault Flt :=
  if fltOverflows mant radix exp || fltUnderflows mant radix exp then .error .out_of_range
  else .ok (.num neg mant radix exp)

/-- A decimal floating constant. -/
def scanDecimal (neg : Bool) (s : Str) : Except StofFault Flt :=
  match scanMantissa decDigit 10 s with
  | none => .error .invalid_argument
  | some (mant, fracDigits, rest) =>
    rangeChecked neg mant 10 (scanExponent 'e' 'E' rest - (fracDigits : Int))

/-- The constant that follows the white space and the sign. -/
def scanNumber (neg : Bool) (s : Str) : Except StofFault Flt :=
  match dropWord "inf".toList s with
  | some _ => .ok (.inf neg)
  | none =>
    match dropWord "nan".toList s with
    | some _ => .ok (.nan neg)
    | none =>
      match dropWord "0x".toList s with
      | some r =>
        match scanMantissa hexDigit 16 r with
        | some (mant, fracDigits, rest) =>
          rangeChecked neg mant 2 (scanExponent 'p' 'P' rest - 4 * (fracDigits : Int))
        | none => scanDecimal neg s
      | none => scanDecimal neg s

/-- Reference model of `std::stof(s)`. -/
def refStof (s : Str) : Except StofFault Flt :=
  match s.dropWhile isSpaceChar with
  | '-' :: r => scanNumber true r
  | '+' :: r => scanNumber false r
  | r => scanNumber false r

/-- Whether a coordinate lies in the volume an `OcTreeStamped` of resolution 10 can
address (depth 16, so `-327680 <= c < 327680`); non-finite values do not. -/
def refAddressable : Flt → Bool
  | .num neg mant radix (.ofNat k) =>
    if neg then decide (mant * radix ^ k ≤ 327680) else decide (mant * radix ^ k < 327680)
  | .num neg mant radix (.negSucc k) =>
    if neg then decide (mant ≤ 327680 * radix ^ (k + 1))
    else decide (mant < 327680 * radix ^ (k + 1))
  | .inf _ => false
  | .nan _ => false

/-- Reference `updateNode`: the tree state is the list of points it holds; a point
outside the addressable volume is rejected (no node is returned) and the tree is
left as it was. -/
def refUpdateNode (t : List Point3d) (p : Point3d) (_occupied : Bool) : List Point3d × Bool :=
  if refAddressable p.1 && refAddressable p.2.1 && refAddressable p.2.2 then (t ++ [p], true)
  else (t, false)

/-- A world with `refStof`, the given files and the reference tree. -/
def refWorld (files : List (Str × Str)) : World (List Point3d) :=
  { stof := refStof
    readFile := fun path => StrMap.find files path
    newTree := []
    updateNode := refUpdateNode }

/-! ## Vocabulary of the statements -/

/-- The lines of a file, as successive `std::getline(infile, line)` calls deliver
them: a final line needs no newline after it, and a final newline starts no line. -/
def fileLines : Str → List Str
  | [] => []
  | c :: cs =>
    if c = '\n' then [] :: fileLines cs
    else
      match fileLines cs with
      | [] => [[c]]
      | l :: ls => (c :: l) :: ls

/-- The loop of `main` over lines already split: `ingestLoop_eq_ingestLines` shows
that `ingestLoop`, given enough fuel, does exactly this on the lines of its stream. -/
def ingestLines {T : Type} (w : World T) (out : Str) : List Str → T → Run
  | [], _ => finish out
  | line :: rest, tree =>
    match parseLine w.stof line with
    | .exit message status => { events := [.cout message], outcome := .returned status }
    | .fault f => { events := [], outcome := .terminated f }
    | .point p =>
      { events := .updateNode p true (w.updateNode tree p true).2 ::
          (ingestLines w out rest (w.updateNode tree p true).1).events,
        outcome := (ingestLines w out rest (w.updateNode tree p true).1).outcome }

/-- The lines a stream still delivers. -/
def pendingLines (is : IStream) : List Str := if is.good then fileLines is.buf else []

/-- The three strings the loop body hands to `std::stof` for a line (when it gets
that far): what the three `std::getline(ss, substr, ...)` calls leave in `substr`. -/
def lineFields (line : Str) : Str × Str × Str :=
  let r1 := (IStream.ofString line).getline [] ','
  let r2 := r1.1.getline r1.2 ','
  let r3 := r2.1.getline r2.2 '\n'
  (r1.2, r2.2, r3.2)

/-- The record `x,y,z` with the given fields. -/
def renderRecord (f : Str × Str × Str) : Str := f.1 ++ ',' :: (f.2.1 ++ ',' :: f.2.2)

/-- A well-formed record together with its coordinates: the first two fields hold
no comma and `stof` converts each field to the corresponding coordinate. -/
def WellFormed (stof : Str → Except StofFault Flt) (r : (Str × Str × Str) × Point3d) : Prop :=
  ',' ∉ r.1.1 ∧ ',' ∉ r.1.2.1 ∧
    stof r.1.1 = .ok r.2.1 ∧ stof r.1.2.1 = .ok r.2.2.1 ∧ stof r.1.2.2 = .ok r.2.2.2

/-- The command line passes the argument check and the input file opens with the
given content. -/
def Opens {T : Type} (w : World T) (argv : List Str) (content : Str) : Prop :=
  (Command_Line_Argument_Parser.construct argv).flag_arguments.index xyzFlag ≠ [] ∧
  (Command_Line_Argument_Parser.construct argv).flag_arguments.index outFlag ≠ [] ∧
  w.readFile ((Command_Line_Argument_Parser.construct argv).flag_arguments.index xyzFlag)
    = some content

/-- Arguments of the `updateNode` calls of a run, in order. -/
def updateCalls : List Event → List (Point3d × Bool)
  | [] => []
  | .updateNode p occupied _ :: es => (p, occupied) :: updateCalls es
  | _ :: es => updateCalls es

/-- Texts written to `std::cout`, in order. -/
def printed : List Event → List Str
  | [] => []
  | .cout text :: es => text :: printed es
  | _ :: es => printed es

/-- Calls on the tree. -/
def Event.isTreeCall : Event → Bool
  | .updateNode _ _ _ => true
  | .toMaxLikelihood => true
  | .updateInnerOccupancy => true
  | .writeBinary _ => true
  | _ => false

/-- The event without what the library answered. -/
def Event.forgetResult : Event → Event
  | .updateNode p occupied _ => .updateNode p occupied true
  | e => e

/-- The same world with another octomap library. -/
def World.withTree {T U : Type} (w : World T) (newTree : U)
    (updateNode : U → Point3d → Bool → U × Bool) : World U :=
  { stof := w.stof, readFile := w.readFile, newTree := newTree, updateNode := updateNode }

/-- The loop of the constructor, started at the first element of `args`, visits
every element in turn and stops exactly at the end of `args`: no flag of `args`
lacks its value or takes it from what follows `args`. -/
def aligned : List Str → Bool
  | [] => true
  | arg :: rest =>
    if cstrAt arg 0 = '-' then
      if cstrAt arg 1 = '\x00' then aligned rest
      else
        match rest with
        | _ :: rest' => aligned rest'
        | [] => false
    else aligned rest

/-- The tree after `updateNode(p, true)` for each point of the list, in order. -/
def updateTree {T : Type} (w : World T) : T → List Point3d → T
  | t, [] => t
  | t, p :: ps => updateTree w (w.updateNode t p true).1 ps

/-- The events of calling `updateNode(p, true)` for each point of the list, in
order, starting from the given tree. -/
def updateEvents {T : Type} (w : World T) : T → List Point3d → List Event
  | _, [] => []
  | t, p :: ps =>
    .updateNode p true (w.updateNode t p true).2 ::
      updateEvents w (w.updateNode t p true).1 ps

/-- A command line that passes the argument check:
`my_point_cloud_reader --xyz_csv in.csv --out map.bt`. -/
def sampleArgv : List Str :=
  ["my_point_cloud_reader".toList, xyzFlag, "in.csv".toList, outFlag, "map.bt".toList]

/-- The reference world in which `in.csv` has the given content. -/
def sampleWorld (content : String) : World (List Point3d) :=
  refWorld [("in.csv".toList, content.toList)]

/-- The `float` read from a decimal integer literal. -/
def Flt.ofNat (n : Nat) : Flt := .num false n 10 0

/-! # Theorems -/

open Command_Line_Argument_Parser

/-! ## The flag map -/

theorem cstrAt_zero_eq_dash (s : Str) : cstrAt s 0 = '-' ↔ s.head? = some '-' := by
  cases s <;> simp [cstrAt]

theorem StrMap.find_append (m : StrMap) (k v key : Str) :
    StrMap.find (m ++ [(k, v)]) key =
      match StrMap.find m key with
      | some x => some x
      | none => if k = key then some v else none := by
  induction m with
  | nil => simp [StrMap.find]
  | cons e m ih =>
    obtain ⟨k', v'⟩ := e
    by_cases h : k' = key <;> simp [StrMap.find, h, ih]

theorem StrMap.find_insert_self (m : StrMap) (k v : Str) :
    StrMap.find (StrMap.insert m k v) k = some ((StrMap.find m k).getD v) := by
  unfold StrMap.insert
  cases h : StrMap.find m k with
  | some x => simp [h]
  | none => simp [StrMap.find_append, h]

theorem StrMap.find_insert_of_ne (m : StrMap) (k v key : Str) (h : k ≠ key) :
    StrMap.find (StrMap.insert m k v) key = StrMap.find m key := by
  unfold StrMap.insert
  cases hk : StrMap.find m k with
  | some x => simp
  | none =>
    simp only [StrMap.find_append]
    cases StrMap.find m key <;> simp [h]

theorem StrMap.insert_of_find (m : StrMap) (k v x : Str) (h : StrMap.find m k = some x) :
    StrMap.insert m k v = m := by
  simp [StrMap.insert, h]

theorem StrMap.mem_keys_insert (m : StrMap) (k v a : Str)
    (h : a ∈ StrMap.keys (StrMap.insert m k v)) : a ∈ StrMap.keys m ∨ a = k := by
  unfold StrMap.insert at h
  cases hk : StrMap.find m k with
  | some x => rw [hk] at h; exact Or.inl h
  | none =>
    rw [hk] at h
    simp only [StrMap.keys, List.map_append, List.mem_append, List.map_cons, List.map_nil,
      List.mem_singleton] at h ⊢
    exact h

theorem StrMap.mem_values_insert (m : StrMap) (k v a : Str)
    (h : a ∈ StrMap.values (StrMap.insert m k v)) : a ∈ StrMap.values m ∨ a = v := by
  unfold StrMap.insert at h
  cases hk : StrMap.find m k with
  | some x => rw [hk] at h; exact Or.inl h
  | none =>
    rw [hk] at h
    simp only [StrMap.values, List.map_append, List.mem_append, List.map_cons, List.map_nil,
      List.mem_singleton] at h ⊢
    exact h

/-! ## The constructor of Command_Line_Argument_Parser -/

theorem scan_bare (arg : Str) (rest : List Str) (p : Command_Line_Argument_Parser)
    (h0 : cstrAt arg 0 = '-') (h1 : cstrAt arg 1 = '\x00') :
    scan (arg :: rest) p =
      scan rest { p with flag_arguments := p.flag_arguments.insert arg [] } := by
  rw [scan.eq_def]; simp only [if_pos h0, if_pos h1]

theorem scan_valued (arg next : Str) (rest : List Str) (p : Command_Line_Argument_Parser)
    (h0 : cstrAt arg 0 = '-') (h1 : ¬ cstrAt arg 1 = '\x00') :
    scan (arg :: next :: rest) p =
      scan rest { p with flag_arguments := p.flag_arguments.insert arg next } := by
  rw [scan.eq_def]; simp only [if_pos h0, if_neg h1]

theorem scan_valued_last (arg : Str) (p : Command_Line_Argument_Parser)
    (h0 : cstrAt arg 0 = '-') (h1 : ¬ cstrAt arg 1 = '\x00') :
    scan [arg] p = p := by
  rw [scan.eq_def]; simp only [if_pos h0, if_neg h1]

theorem scan_plain (arg : Str) (rest : List Str) (p : Command_Line_Argument_Parser)
    (h0 : ¬ cstrAt arg 0 = '-') :
    scan (arg :: rest) p =
      scan rest { p with lone_arguments := p.lone_arguments ++ [arg] } := by
  rw [scan.eq_def]; simp only [if_neg h0]

theorem aligned_bare (arg : Str) (rest : List Str)
    (h0 : cstrAt arg 0 = '-') (h1 : cstrAt arg 1 = '\x00') :
    aligned (arg :: rest) = aligned rest := by
  rw [aligned.eq_def]; simp only [if_pos h0, if_pos h1]

theorem aligned_valued (arg next : Str) (rest : List Str)
    (h0 : cstrAt arg 0 = '-') (h1 : ¬ cstrAt arg 1 = '\x00') :
    aligned (arg :: next :: rest) = aligned rest := by
  rw [aligned.eq_def]; simp only [if_pos h0, if_neg h1]

theorem aligned_valued_last (arg : Str)
    (h0 : cstrAt arg 0 = '-') (h1 : ¬ cstrAt arg 1 = '\x00') :
    aligned [arg] = false := by
  rw [aligned.eq_def]; simp only [if_pos h0, if_neg h1]

theorem aligned_plain (arg : Str) (rest : List Str) (h0 : ¬ cstrAt arg 0 = '-') :
    aligned (arg :: rest) = aligned rest := by
  rw [aligned.eq_def]; simp only [if_neg h0]

theorem scan_command (args : List Str) (p : Command_Line_Argument_Parser) :
    (scan args p).command = p.command := by
  induction args, p using scan.induct with
  | case1 p => simp [scan]
  | case2 arg rest p h0 h1 ih => rw [scan_bare _ _ _ h0 h1]; exact ih
  | case3 arg p h0 h1 next rest ih => rw [scan_valued _ _ _ _ h0 h1]; exact ih
  | case4 arg p h0 h1 => rw [scan_valued_last _ _ h0 h1]
  | case5 arg rest p h0 ih => rw [scan_plain _ _ _ h0]; exact ih

theorem scan_keys (args : List Str) (p : Command_Line_Argument_Parser) :
    ∀ k ∈ (scan args p).flag_arguments.keys,
      k ∈ p.flag_arguments.keys ∨ (k.head? = some '-' ∧ k ∈ args) := by
  induction args, p using scan.induct with
  | case1 p => intro k hk; exact Or.inl (by simpa [scan] using hk)
  | case2 arg rest p h0 h1 ih =>
    intro k hk
    rw [scan_bare _ _ _ h0 h1] at hk
    rcases ih k hk with h | ⟨hd, hm⟩
    · rcases StrMap.mem_keys_insert _ _ _ _ h with h | h
      · exact Or.inl h
      · subst h; exact Or.inr ⟨(cstrAt_zero_eq_dash _).1 h0, List.mem_cons_self _ _⟩
    · exact Or.inr ⟨hd, List.mem_cons_of_mem _ hm⟩
  | case3 arg p h0 h1 next rest ih =>
    intro k hk
    rw [scan_valued _ _ _ _ h0 h1] at hk
    rcases ih k hk with h | ⟨hd, hm⟩
    · rcases StrMap.mem_keys_insert _ _ _ _ h with h | h
      · exact Or.inl h
      · subst h; exact Or.inr ⟨(cstrAt_zero_eq_dash _).1 h0, List.mem_cons_self _ _⟩
    · exact Or.inr ⟨hd, List.mem_cons_of_mem _ (List.mem_cons_of_mem _ hm)⟩
  | case4 arg p h0 h1 =>
    intro k hk
    rw [scan_valued_last _ _ h0 h1] at hk
    exact Or.inl hk
  | case5 arg rest p h0 ih =>
    intro k hk
    rw [scan_plain _ _ _ h0] at hk
    rcases ih k hk with h | ⟨hd, hm⟩
    · exact Or.inl h
    · exact Or.inr ⟨hd, List.mem_cons_of_mem _ hm⟩

theorem scan_values (args : List Str) (p : Command_Line_Argument_Parser) :
    ∀ v ∈ (scan args p).flag_arguments.values,
      v ∈ p.flag_arguments.values ∨ v = [] ∨ v ∈ args := by
  induction args, p using scan.induct with
  | case1 p => intro k hk; exact Or.inl (by simpa [scan] using hk)
  | case2 arg rest p h0 h1 ih =>
    intro k hk
    rw [scan_bare _ _ _ h0 h1] at hk
    rcases ih k hk with h | h | hm
    · rcases StrMap.mem_values_insert _ _ _ _ h with h | h
      · exact Or.inl h
      · exact Or.inr (Or.inl h)
    · exact Or.inr (Or.inl h)
    · exact Or.inr (Or.inr (List.mem_cons_of_mem _ hm))
  | case3 arg p h0 h1 next rest ih =>
    intro k hk
    rw [scan_valued _ _ _ _ h0 h1] at hk
    rcases ih k hk with h | h | hm
    · rcases StrMap.mem_values_insert _ _ _ _ h with h | h
      · exact Or.inl h
      · subst h; exact Or.inr (Or.inr (List.mem_cons_of_mem _ (List.mem_cons_self _ _)))
    · exact Or.inr (Or.inl h)
    · exact Or.inr (Or.inr (List.mem_cons_of_mem _ (List.mem_cons_of_mem _ hm)))
  | case4 arg p h0 h1 =>
    intro k hk
    rw [scan_valued_last _ _ h0 h1] at hk
    exact Or.inl hk
  | case5 arg rest p h0 ih =>
    intro k hk
    rw [scan_plain _ _ _ h0] at hk
    rcases ih k hk with h | h | hm
    · exact Or.inl h
    · exact Or.inr (Or.inl h)
    · exact Or.inr (Or.inr (List.mem_cons_of_mem _ hm))

theorem scan_lone (args : List Str) (p : Command_Line_Argument_Parser) :
    ∃ l : List Str, (scan args p).lone_arguments = p.lone_arguments ++ l ∧
      l.Sublist args ∧ ∀ a ∈ l, a.head? ≠ some '-' := by
  induction args, p using scan.induct with
  | case1 p => exact ⟨[], by simp [scan]⟩
  | case2 arg rest p h0 h1 ih =>
    obtain ⟨l, h, hs, hd⟩ := ih
    refine ⟨l, ?_, hs.cons _, hd⟩
    rw [scan_bare _ _ _ h0 h1]; exact h
  | case3 arg p h0 h1 next rest ih =>
    obtain ⟨l, h, hs, hd⟩ := ih
    refine ⟨l, ?_, (hs.cons _).cons _, hd⟩
    rw [scan_valued _ _ _ _ h0 h1]; exact h
  | case4 arg p h0 h1 =>
    refine ⟨[], ?_, List.nil_sublist _, by simp⟩
    rw [scan_valued_last _ _ h0 h1]; simp
  | case5 arg rest p h0 ih =>
    obtain ⟨l, h, hs, hd⟩ := ih
    refine ⟨arg :: l, ?_, hs.cons₂ _, ?_⟩
    · rw [scan_plain _ _ _ h0, h]; simp
    · intro a ha
      rcases List.mem_cons.1 ha with rfl | ha
      · exact fun hh => h0 ((cstrAt_zero_eq_dash _).2 hh)
      · exact hd a ha

theorem scan_no_dash (args : List Str) (p : Command_Line_Argument_Parser)
    (h : ∀ a ∈ args, a.head? ≠ some '-') :
    scan args p = { p with lone_arguments := p.lone_arguments ++ args } := by
  induction args generalizing p with
  | nil => simp [scan]
  | cons a rest ih =>
    have h0 : ¬ cstrAt a 0 = '-' := fun hh =>
      h a (List.mem_cons_self _ _) ((cstrAt_zero_eq_dash _).1 hh)
    rw [scan_plain _ _ _ h0, ih _ (fun b hb => h b (List.mem_cons_of_mem _ hb))]
    simp

theorem scan_append (pre rest : List Str) (p : Command_Line_Argument_Parser)
    (h : aligned pre = true) : scan (pre ++ rest) p = scan rest (scan pre p) := by
  induction pre, p using scan.induct with
  | case1 p => simp [scan]
  | case2 arg pre p h0 h1 ih =>
    rw [aligned_bare _ _ h0 h1] at h
    rw [List.cons_append, scan_bare _ _ _ h0 h1, ih h, scan_bare _ _ _ h0 h1]
  | case3 arg p h0 h1 next pre ih =>
    rw [aligned_valued _ _ _ h0 h1] at h
    rw [List.cons_append, List.cons_append, scan_valued _ _ _ _ h0 h1, ih h,
      scan_valued _ _ _ _ h0 h1]
  | case4 arg p h0 h1 =>
    rw [aligned_valued_last _ h0 h1] at h
    exact absurd h (by simp)
  | case5 arg pre p h0 ih =>
    rw [aligned_plain _ _ h0] at h
    rw [List.cons_append, scan_plain _ _ _ h0, ih h, scan_plain _ _ _ h0]

theorem scan_find_of_some (args : List Str) (p : Command_Line_Argument_Parser) (k x : Str)
    (h : StrMap.find p.flag_arguments k = some x) :
    StrMap.find (scan args p).flag_arguments k = some x := by
  induction args, p using scan.induct with
  | case1 p => simpa [scan] using h
  | case2 arg rest p h0 h1 ih =>
    rw [scan_bare _ _ _ h0 h1]
    apply ih
    by_cases hk : arg = k
    · subst hk; simp [StrMap.find_insert_self, h]
    · simp [StrMap.find_insert_of_ne _ _ _ _ hk, h]
  | case3 arg p h0 h1 next rest ih =>
    rw [scan_valued _ _ _ _ h0 h1]
    apply ih
    by_cases hk : arg = k
    · subst hk; simp [StrMap.find_insert_self, h]
    · simp [StrMap.find_insert_of_ne _ _ _ _ hk, h]
  | case4 arg p h0 h1 =>
    rw [scan_valued_last _ _ h0 h1]; exact h
  | case5 arg rest p h0 ih =>
    rw [scan_plain _ _ _ h0]; exact ih h

theorem StrMap.find_eq_none_of_not_mem (m : StrMap) (k : Str) (h : k ∉ StrMap.keys m) :
    StrMap.find m k = none := by
  induction m with
  | nil => rfl
  | cons e m ih =>
    obtain ⟨k', v'⟩ := e
    simp only [StrMap.keys, List.map_cons, List.mem_cons, not_or] at h
    have h1 : ¬ k' = k := fun hh => h.1 hh.symm
    simp only [StrMap.find, if_neg h1]
    exact ih h.2

theorem with_flag_arguments_self (p : Command_Line_Argument_Parser) :
    { p with flag_arguments := p.flag_arguments } = p := by
  cases p; rfl

theorem construct_cons (cmd : Str) (args : List Str) :
    construct (cmd :: args) =
      scan args { command := cmd, usage := [], lone_arguments := [], flag_arguments := [] } := rfl

theorem construct_members (argv : List Str) :
    (∀ k ∈ (construct argv).flag_arguments.keys, k.head? = some '-' ∧ k ∈ argv.tail) ∧
    (∀ v ∈ (construct argv).flag_arguments.values, v = [] ∨ v ∈ argv.tail) ∧
    (∀ a ∈ (construct argv).lone_arguments, a.head? ≠ some '-' ∧ a ∈ argv.tail) ∧
    (construct argv).lone_arguments.Sublist argv.tail := by
  unfold construct
  refine ⟨?_, ?_, ?_, ?_⟩
  · intro k hk
    rcases scan_keys _ _ k hk with h | h
    · simp [StrMap.keys] at h
    · exact h
  · intro v hv
    rcases scan_values _ _ v hv with h | h
    · simp [StrMap.values] at h
    · exact h
  · intro a ha
    obtain ⟨l, h, hs, hd⟩ := scan_lone argv.tail
      { command := argv.headD [], usage := [], lone_arguments := [], flag_arguments := [] }
    rw [h] at ha
    simp only [List.nil_append] at ha
    exact ⟨hd a ha, hs.subset ha⟩
  · obtain ⟨l, h, hs, _⟩ := scan_lone argv.tail
      { command := argv.headD [], usage := [], lone_arguments := [], flag_arguments := [] }
    rw [h]; simpa using hs

/-- C8. Classification invariant of the constructor of `Command_Line_Argument_Parser`:
every key of `flag_arguments` begins with `-` and is one of `argv[1..]`; no element of
`lone_arguments` begins with `-`; `lone_arguments` is a subsequence of `argv[1..]` in
the same order; and when no argument begins with `-`, `lone_arguments` is `argv[1..]`
and `flag_arguments` is empty. -/
theorem C8_classification_invariant (argv : List Str) :
    (∀ k ∈ (construct argv).get_flag_arguments.keys, k.head? = some '-' ∧ k ∈ argv.tail) ∧
    (∀ a ∈ (construct argv).get_lone_arguments, a.head? ≠ some '-') ∧
    (construct argv).get_lone_arguments.Sublist argv.tail ∧
    ((∀ a ∈ argv.tail, a.head? ≠ some '-') →
      (construct argv).get_lone_arguments = argv.tail ∧
      (construct argv).get_flag_arguments = []) := by
  obtain ⟨hk, _, hl, hs⟩ := construct_members argv
  refine ⟨hk, fun a ha => (hl a ha).1, hs, ?_⟩
  intro h
  simp [get_lone_arguments, get_flag_arguments, construct, scan_no_dash _ _ h]

/-- C8 at `argv = [cmd, a, b]`, where no argument begins with `-`. -/
theorem C8_classification_invariant_witness :
    (∀ a ∈ ["cmd".toList, "a".toList, "b".toList].tail, a.head? ≠ some '-') ∧
    (construct ["cmd".toList, "a".toList, "b".toList]).get_lone_arguments
      = ["a".toList, "b".toList] ∧
    (construct ["cmd".toList, "a".toList, "b".toList]).get_flag_arguments = [] :=
  ⟨by decide,
   (C8_classification_invariant ["cmd".toList, "a".toList, "b".toList]).2.2.2 (by decide)⟩

/-- C9. The first occurrence of a repeated flag wins. Let the flag `f` (beginning with
`-` and having a second character) be parsed as a key at two places of the argument
list, with values `v1` and then `v2`, the first place being the first at which `f` is
parsed as a key. Then `flag_arguments` maps `f` to `v1`, and the second pair `f v2` is
consumed without a trace: the parser is the one of the command line without that pair.
In particular a `v2` that is not empty and occurs nowhere else on the command line is
neither a key, nor a value, nor a lone argument. -/
theorem C9_first_occurrence_wins (cmd : Str) (pre mid post : List Str) (f v1 v2 : Str)
    (hpre : aligned pre = true) (hmid : aligned mid = true)
    (hf0 : f.head? = some '-') (hf1 : cstrAt f 1 ≠ '\x00')
    (hfirst : StrMap.find (construct (cmd :: pre)).get_flag_arguments f = none) :
    StrMap.find (construct (cmd :: (pre ++ f :: v1 :: (mid ++ f :: v2 :: post)))).get_flag_arguments f
      = some v1 ∧
    construct (cmd :: (pre ++ f :: v1 :: (mid ++ f :: v2 :: post)))
      = construct (cmd :: (pre ++ f :: v1 :: (mid ++ post))) ∧
    (v2 ≠ [] → v2 ∉ pre ++ f :: v1 :: (mid ++ post) →
      v2 ∉ (construct (cmd :: (pre ++ f :: v1 :: (mid ++ f :: v2 :: post)))).get_flag_arguments.keys ∧
      v2 ∉ (construct (cmd :: (pre ++ f :: v1 :: (mid ++ f :: v2 :: post)))).get_flag_arguments.values ∧
      v2 ∉ (construct (cmd :: (pre ++ f :: v1 :: (mid ++ f :: v2 :: post)))).get_lone_arguments) := by
  have h0 : cstrAt f 0 = '-' := (cstrAt_zero_eq_dash f).2 hf0
  simp only [get_flag_arguments, get_lone_arguments] at hfirst ⊢
  rw [construct_cons] at hfirst
  have hq : StrMap.find (StrMap.insert (scan pre
      { command := cmd, usage := [], lone_arguments := [], flag_arguments := [] }).flag_arguments
      f v1) f = some v1 := by
    rw [StrMap.find_insert_self, hfirst]; rfl
  have hmidq := scan_find_of_some mid
    { scan pre { command := cmd, usage := [], lone_arguments := [], flag_arguments := [] } with
      flag_arguments := StrMap.insert (scan pre
        { command := cmd, usage := [], lone_arguments := [], flag_arguments := [] }).flag_arguments
        f v1 } f v1 hq
  have heq : construct (cmd :: (pre ++ f :: v1 :: (mid ++ f :: v2 :: post)))
      = construct (cmd :: (pre ++ f :: v1 :: (mid ++ post))) := by
    rw [construct_cons, construct_cons, scan_append _ _ _ hpre, scan_append _ _ _ hpre,
      scan_valued _ _ _ _ h0 hf1, scan_valued _ _ _ _ h0 hf1, scan_append _ _ _ hmid,
      scan_append _ _ _ hmid, scan_valued _ _ _ _ h0 hf1,
      StrMap.insert_of_find _ _ _ _ hmidq, with_flag_arguments_self]
  refine ⟨?_, heq, ?_⟩
  · rw [heq, construct_cons, scan_append _ _ _ hpre, scan_valued _ _ _ _ h0 hf1,
      scan_append _ _ _ hmid]
    exact scan_find_of_some post _ f v1 hmidq
  · intro hne hnot
    rw [heq]
    obtain ⟨hk, hv, hl, _⟩ := construct_members (cmd :: (pre ++ f :: v1 :: (mid ++ post)))
    refine ⟨fun h => hnot (hk v2 h).2, fun h => ?_, fun h => hnot (hl v2 h).2⟩
    rcases hv v2 h with h | h
    · exact hne h
    · exact hnot h

/-- C9 at `cmd a --f x b --f y c`. -/
theorem C9_first_occurrence_wins_witness :
    StrMap.find (construct (["cmd", "a", "--f", "x", "b", "--f", "y", "c"].map String.toList)).get_flag_arguments
      "--f".toList = some "x".toList ∧
    construct (["cmd", "a", "--f", "x", "b", "--f", "y", "c"].map String.toList)
      = construct (["cmd", "a", "--f", "x", "b", "c"].map String.toList) :=
  have h := C9_first_occurrence_wins "cmd".toList ["a".toList] ["b".toList] ["c".toList]
    "--f".toList "x".toList "y".toList (by decide) (by decide) (by decide) (by decide) (by decide)
  ⟨h.1, h.2.1⟩

/-- C3. Usage contract of the command line. With non-empty `F` and `O`, the command
lines `cmd --xyz_csv F --out O` and `cmd --out O --xyz_csv F` pass the argument check
and `main` goes on with input path `F` and output path `O`, first of all opening
`F`. For every command line whose parsed flags lack `--xyz_csv` or `--out`, or map
one of them to the empty string, the whole run of `main` is: print the command name
followed by the usage text, return -1. -/
theorem C3_usage_contract {T : Type} (w : World T) :
    (∀ cmd F O : Str, F ≠ [] → O ≠ [] →
      main w [cmd, xyzFlag, F, outFlag, O] = ingest w F O ∧
      main w [cmd, outFlag, O, xyzFlag, F] = ingest w F O ∧
      (ingest w F O).events.head? = some (.ifstream F)) ∧
    (∀ argv : List Str,
      (StrMap.find (construct argv).get_flag_arguments xyzFlag = none ∨
       StrMap.find (construct argv).get_flag_arguments xyzFlag = some [] ∨
       StrMap.find (construct argv).get_flag_arguments outFlag = none ∨
       StrMap.find (construct argv).get_flag_arguments outFlag = some []) →
      main w argv =
        { events := [.cout (argv.headD [] ++ usageText)], outcome := .returned (-1) }) := by
  constructor
  · intro cmd F O hF hO
    have hx0 : cstrAt xyzFlag 0 = '-' := by decide
    have hx1 : ¬ cstrAt xyzFlag 1 = '\x00' := by decide
    have ho0 : cstrAt outFlag 0 = '-' := by decide
    have ho1 : ¬ cstrAt outFlag 1 = '\x00' := by decide
    have hne : xyzFlag ≠ outFlag := by decide
    have hFe : F.isEmpty = false := by cases F <;> simp_all
    have hOe : O.isEmpty = false := by cases O <;> simp_all
    refine ⟨?_, ?_, ?_⟩
    · simp [main, construct, scan_valued _ _ _ _ hx0 hx1, scan_valued _ _ _ _ ho0 ho1, scan,
        get_flag_arguments, StrMap.index, StrMap.insert, StrMap.find, hne, hne.symm, hFe, hOe]
    · simp [main, construct, scan_valued _ _ _ _ hx0 hx1, scan_valued _ _ _ _ ho0 ho1, scan,
        get_flag_arguments, StrMap.index, StrMap.insert, StrMap.find, hne, hne.symm, hFe, hOe]
    · unfold ingest
      cases w.readFile F <;> rfl
  · intro argv h
    have hcmd : (construct argv).get_command = argv.headD [] := by
      simp [get_command, construct, scan_command]
    have hcheck : (((construct argv).get_flag_arguments.index xyzFlag).isEmpty
        || ((construct argv).get_flag_arguments.index outFlag).isEmpty) = true := by
      rcases h with h | h | h | h <;> simp [StrMap.index, h]
    simp only [main, hcheck, if_true, hcmd]

/-- C3 at `cmd --xyz_csv in.csv --out map.bt` and at `cmd --out map.bt`, in the
reference world without files. -/
theorem C3_usage_contract_witness :
    main (refWorld []) ["cmd".toList, xyzFlag, "in.csv".toList, outFlag, "map.bt".toList]
      = ingest (refWorld []) "in.csv".toList "map.bt".toList ∧
    main (refWorld []) ["cmd".toList, outFlag, "map.bt".toList]
      = { events := [.cout ("cmd".toList ++ usageText)], outcome := .returned (-1) } :=
  ⟨((C3_usage_contract (refWorld [])).1 "cmd".toList "in.csv".toList "map.bt".toList
      (by decide) (by decide)).1,
   (C3_usage_contract (refWorld [])).2 ["cmd".toList, outFlag, "map.bt".toList]
      (Or.inl (by decide))⟩

/-! ## std::getline and the lines of a file -/

theorem takeUntil_append (d : Char) (pre rest : Str) (h : d ∉ pre) :
    IStream.takeUntil d (pre ++ d :: rest) = (pre, some rest) := by
  induction pre with
  | nil => simp [IStream.takeUntil]
  | cons c cs ih =>
    simp only [List.mem_cons, not_or] at h
    have hc : ¬ c = d := fun hh => h.1 hh.symm
    simp [IStream.takeUntil, hc, ih h.2]

theorem takeUntil_of_not_mem (d : Char) (s : Str) (h : d ∉ s) :
    IStream.takeUntil d s = (s, none) := by
  induction s with
  | nil => rfl
  | cons c cs ih =>
    simp only [List.mem_cons, not_or] at h
    have hc : ¬ c = d := fun hh => h.1 hh.symm
    simp [IStream.takeUntil, hc, ih h.2]

theorem takeUntil_rest_length (d : Char) (s t rest : Str)
    (h : IStream.takeUntil d s = (t, some rest)) : rest.length < s.length := by
  induction s generalizing t with
  | nil => simp [IStream.takeUntil] at h
  | cons c cs ih =>
    by_cases hc : c = d
    · simp only [IStream.takeUntil, if_pos hc, Prod.mk.injEq, Option.some.injEq] at h
      rw [← h.2]; simp
    · simp only [IStream.takeUntil, if_neg hc, Prod.mk.injEq] at h
      have := ih (IStream.takeUntil d cs).1 (Prod.ext rfl h.2)
      simp only [List.length_cons]; omega

theorem fileLines_eq (s : Str) :
    fileLines s =
      match IStream.takeUntil '\n' s with
      | (t, some rest) => t :: fileLines rest
      | (t, none) => if t.isEmpty then [] else [t] := by
  induction s with
  | nil => rfl
  | cons c cs ih =>
    by_cases hc : c = '\n'
    · simp [fileLines, IStream.takeUntil, hc]
    · simp only [fileLines, IStream.takeUntil, if_neg hc]
      rw [ih]
      rcases h : IStream.takeUntil '\n' cs with ⟨t, _ | rest⟩
      · cases t <;> simp
      · simp

theorem fileLines_no_newline (s : Str) : ∀ l ∈ fileLines s, '\n' ∉ l := by
  induction s with
  | nil => simp [fileLines]
  | cons c cs ih =>
    by_cases hc : c = '\n'
    · simp only [fileLines, if_pos hc]
      intro l hl
      rcases List.mem_cons.1 hl with rfl | hl
      · simp
      · exact ih l hl
    · simp only [fileLines, if_neg hc]
      cases h : fileLines cs with
      | nil =>
        intro l hl
        simp only [List.mem_singleton] at hl
        subst hl
        simpa using fun hh => hc hh.symm
      | cons l0 ls =>
        rw [h] at ih
        intro l hl
        rcases List.mem_cons.1 hl with rfl | hl
        · have := ih l0 (List.mem_cons_self _ _)
          simp only [List.mem_cons, not_or]
          exact ⟨fun hh => hc hh.symm, this⟩
        · exact ih l (List.mem_cons_of_mem _ hl)

/-! ## The reading loop -/

theorem ingestLoop_eq_ingestLines {T : Type} (w : World T) (out : Str) :
    ∀ (fuel : Nat) (is : IStream) (line : Str) (tree : T), is.buf.length < fuel →
      ingestLoop w out fuel is line tree = ingestLines w out (pendingLines is) tree := by
  intro fuel
  induction fuel with
  | zero => intro is line tree h; omega
  | succ fuel ih =>
    intro is line tree hlen
    obtain ⟨buf, eof, fail⟩ := is
    by_cases hg : IStream.good ⟨buf, eof, fail⟩ = true
    · have hflags : eof = false ∧ fail = false := by
        simpa [IStream.good] using hg
      obtain ⟨rfl, rfl⟩ := hflags
      have hfl := fileLines_eq buf
      rcases htu : IStream.takeUntil '\n' buf with ⟨t, _ | rest⟩
      · rw [htu] at hfl
        cases t with
        | nil =>
          simp [ingestLoop, IStream.getline, IStream.good, htu, pendingLines, hfl, ingestLines]
        | cons c cs =>
          have hbuf : buf ≠ [] := by
            rintro rfl
            simp [IStream.takeUntil] at htu
          have hfuel : 0 < fuel := by
            have : 0 < buf.length := List.length_pos.2 hbuf
            simp only at hlen
            omega
          have hrec := ih ⟨[], true, false⟩ (c :: cs)
          simp only [pendingLines, IStream.good, Bool.not_true, Bool.false_and,
            Bool.false_eq_true, if_false] at hrec
          simp only [ingestLoop, IStream.getline, IStream.good, htu, pendingLines, hfl,
            ingestLines, Bool.not_false, Bool.and_self, if_true, List.isEmpty_cons,
            Bool.false_eq_true, if_false]
          cases parseLine w.stof (c :: cs) with
          | exit m s => rfl
          | fault f => rfl
          | point p =>
            simp only
            rw [hrec _ (by simpa using hfuel)]
            simp [ingestLines]
      · rw [htu] at hfl
        have hrest := takeUntil_rest_length _ _ _ _ htu
        have hrec := ih ⟨rest, false, false⟩ t
        simp only [pendingLines, IStream.good, Bool.not_false, Bool.and_self, if_true] at hrec
        simp only [ingestLoop, IStream.getline, IStream.good, htu, pendingLines, hfl,
          ingestLines, Bool.not_false, Bool.and_self, if_true, Bool.false_eq_true, if_false]
        cases parseLine w.stof t with
        | exit m s => rfl
        | fault f => rfl
        | point p =>
          simp only
          rw [hrec _ (by simp only at hlen ⊢; omega)]
    · have hp : pendingLines ⟨buf, eof, fail⟩ = [] := by simp [pendingLines, hg]
      rw [hp]
      simp [ingestLoop, IStream.getline, hg, ingestLines]

theorem ingest_of_readFile {T : Type} (w : World T) (inPath outPath content : Str)
    (h : w.readFile inPath = some content) :
    ingest w inPath outPath =
      { events := .ifstream inPath ::
          (ingestLines w outPath (fileLines content).tail w.newTree).events,
        outcome := (ingestLines w outPath (fileLines content).tail w.newTree).outcome } := by
  have hfl := fileLines_eq content
  unfold ingest
  rw [h]
  simp only
  have key : ∀ is : IStream × Str, is = (IStream.ofString content).getline [] '\n' →
      is.1.buf.length < content.length + 1 ∧ pendingLines is.1 = (fileLines content).tail := by
    intro is his
    rcases htu : IStream.takeUntil '\n' content with ⟨t, _ | rest⟩
    · rw [htu] at hfl
      have : is = (⟨[], true, t.isEmpty⟩, t) := by
        rw [his]; simp [IStream.getline, IStream.ofString, IStream.good, htu]
      subst this
      refine ⟨by simp, ?_⟩
      rw [hfl]
      cases t <;> simp [pendingLines, IStream.good]
    · rw [htu] at hfl
      have : is = (⟨rest, false, false⟩, t) := by
        rw [his]; simp [IStream.getline, IStream.ofString, IStream.good, htu]
      subst this
      have := takeUntil_rest_length _ _ _ _ htu
      refine ⟨by simp only; omega, ?_⟩
      rw [hfl]
      simp [pendingLines, IStream.good]
  obtain ⟨hlen, hpend⟩ := key _ rfl
  rw [ingestLoop_eq_ingestLines w outPath _ _ _ _ hlen, hpend]

theorem main_of_opens {T : Type} (w : World T) (argv : List Str) (content : Str)
    (h : Opens w argv content) :
    main w argv =
      { events := .ifstream ((construct argv).flag_arguments.index xyzFlag) ::
          (ingestLines w ((construct argv).flag_arguments.index outFlag)
            (fileLines content).tail w.newTree).events,
        outcome := (ingestLines w ((construct argv).flag_arguments.index outFlag)
            (fileLines content).tail w.newTree).outcome } := by
  obtain ⟨hx, ho, hr⟩ := h
  have hxe : ((construct argv).flag_arguments.index xyzFlag).isEmpty = false := by
    cases hh : (construct argv).flag_arguments.index xyzFlag <;> simp_all
  have hoe : ((construct argv).flag_arguments.index outFlag).isEmpty = false := by
    cases hh : (construct argv).flag_arguments.index outFlag <;> simp_all
  simp only [main, get_flag_arguments, hxe, hoe, Bool.or_self, Bool.false_eq_true, if_false]
  exact ingest_of_readFile w _ _ content hr

theorem main_cases {T : Type} (w : World T) (argv : List Str) :
    main w argv =
      { events := [.cout ((construct argv).get_command ++ usageText)],
        outcome := .returned (-1) } ∨
    main w argv =
      { events := [.ifstream ((construct argv).flag_arguments.index xyzFlag),
          .cout "could not open file\n".toList],
        outcome := .returned (-1) } ∨
    ∃ content, Opens w argv content := by
  by_cases hc : (((construct argv).flag_arguments.index xyzFlag).isEmpty
      || ((construct argv).flag_arguments.index outFlag).isEmpty) = true
  · left
    simp only [main, get_flag_arguments, hc, if_true]
  · right
    cases hr : w.readFile ((construct argv).flag_arguments.index xyzFlag) with
    | none =>
      left
      simp only [main, get_flag_arguments, hc, if_false, ingest, hr, Bool.false_eq_true]
    | some content =>
      right
      refine ⟨content, ?_, ?_, hr⟩
      · intro hh; apply hc; simp [hh]
      · intro hh; apply hc; simp [hh]

/-! ## One line -/

theorem parseLine_exit (stof : Str → Except StofFault Flt) (line msg : Str) (s : Int)
    (h : parseLine stof line = .exit msg s) :
    (msg = "Could not get y\n".toList ∧ s = -3) ∨ (msg = "Could not get z\n".toList ∧ s = -4) := by
  unfold parseLine at h
  simp only [IStream.ofString, IStream.good, Bool.not_false, Bool.and_self, Bool.not_true,
    Bool.false_eq_true, if_false] at h
  split at h
  · cases h
  · split at h
    · cases h; exact Or.inl ⟨rfl, rfl⟩
    · split at h
      · cases h
      · split at h
        · cases h; exact Or.inr ⟨rfl, rfl⟩
        · split at h <;> cases h

theorem parseLine_point (stof : Str → Except StofFault Flt) (line : Str) (p : Point3d)
    (h : parseLine stof line = .point p) :
    stof (lineFields line).1 = .ok p.1 ∧ stof (lineFields line).2.1 = .ok p.2.1 ∧
      stof (lineFields line).2.2 = .ok p.2.2 := by
  unfold parseLine at h
  simp only [IStream.ofString, IStream.good, Bool.not_false, Bool.and_self, Bool.not_true,
    Bool.false_eq_true, if_false] at h
  split at h
  · cases h
  · rename_i x hx
    split at h
    · cases h
    · split at h
      · cases h
      · rename_i y hy
        split at h
        · cases h
        · split at h
          · cases h
          · rename_i z hz
            cases h
            exact ⟨hx, hy, hz⟩

theorem parseLine_record (stof : Str → Except StofFault Flt) (fx fy fz : Str) (x y z : Flt)
    (hx : ',' ∉ fx) (hy : ',' ∉ fy) (hz : '\n' ∉ fz)
    (sx : stof fx = .ok x) (sy : stof fy = .ok y) (sz : stof fz = .ok z) :
    parseLine stof (renderRecord (fx, fy, fz)) = .point (x, y, z) := by
  simp [parseLine, renderRecord, IStream.ofString, IStream.good, IStream.getline,
    takeUntil_append _ _ _ hx, takeUntil_append _ _ _ hy, takeUntil_of_not_mem _ _ hz, sx, sy, sz]

theorem parseLine_one_field (stof : Str → Except StofFault Flt) (f : Str) (v : Flt)
    (hf : ',' ∉ f) (sf : stof f = .ok v) :
    parseLine stof f = .exit "Could not get y\n".toList (-3) := by
  simp [parseLine, IStream.ofString, IStream.good, IStream.getline,
    takeUntil_of_not_mem _ _ hf, sf]

theorem parseLine_two_fields (stof : Str → Except StofFault Flt) (fx fy : Str) (x y : Flt)
    (hx : ',' ∉ fx) (hy : ',' ∉ fy) (sx : stof fx = .ok x) (sy : stof fy = .ok y) :
    parseLine stof (fx ++ ',' :: fy) = .exit "Could not get z\n".toList (-4) := by
  simp [parseLine, IStream.ofString, IStream.good, IStream.getline,
    takeUntil_append _ _ _ hx, takeUntil_of_not_mem _ _ hy, sx, sy]

/-! ## Projections of a trace -/

theorem updateCalls_append (a b : List Event) :
    updateCalls (a ++ b) = updateCalls a ++ updateCalls b := by
  induction a with
  | nil => rfl
  | cons e es ih => cases e <;> simp [updateCalls, ih]

theorem updateCalls_updateEvents {T : Type} (w : World T) (t : T) (ps : List Point3d) :
    updateCalls (updateEvents w t ps) = ps.map (fun p => (p, true)) := by
  induction ps generalizing t with
  | nil => rfl
  | cons p ps ih => simp [updateEvents, updateCalls, ih]

theorem filter_treeCall_updateEvents {T : Type} (w : World T) (t : T) (ps : List Point3d) :
    (updateEvents w t ps).filter Event.isTreeCall = updateEvents w t ps := by
  induction ps generalizing t with
  | nil => rfl
  | cons p ps ih => simp [updateEvents, Event.isTreeCall, ih]

theorem mem_updateEvents {T : Type} (w : World T) (t : T) (ps : List Point3d) :
    ∀ e ∈ updateEvents w t ps, ∃ p r, e = Event.updateNode p true r := by
  induction ps generalizing t with
  | nil => simp [updateEvents]
  | cons p ps ih =>
    intro e he
    rcases List.mem_cons.1 he with rfl | he
    · exact ⟨_, _, rfl⟩
    · exact ih _ e he

/-! ## The loop over lines -/

theorem ingestLines_shape {T : Type} (w : World T) (out : Str) (ls : List Str) (tree : T) :
    ∃ ps : List Point3d,
      ingestLines w out ls tree =
        { events := updateEvents w tree ps ++ (finish out).events, outcome := .returned 0 } ∨
      (∃ msg s, ((msg = "Could not get y\n".toList ∧ s = -3) ∨
          (msg = "Could not get z\n".toList ∧ s = -4)) ∧
        ingestLines w out ls tree =
          { events := updateEvents w tree ps ++ [.cout msg], outcome := .returned s }) ∨
      (∃ f, ingestLines w out ls tree =
          { events := updateEvents w tree ps, outcome := .terminated f }) := by
  induction ls generalizing tree with
  | nil => exact ⟨[], Or.inl rfl⟩
  | cons l ls ih =>
    cases hp : parseLine w.stof l with
    | exit m s =>
      exact ⟨[], Or.inr (Or.inl ⟨m, s, parseLine_exit _ _ _ _ hp, by simp [ingestLines, hp, updateEvents]⟩)⟩
    | fault f =>
      exact ⟨[], Or.inr (Or.inr ⟨f, by simp [ingestLines, hp, updateEvents]⟩)⟩
    | point p =>
      obtain ⟨ps, h⟩ := ih (w.updateNode tree p true).1
      refine ⟨p :: ps, ?_⟩
      rcases h with h | ⟨m, s, hm, h⟩ | ⟨f, h⟩
      · left; simp [ingestLines, hp, updateEvents, h]
      · right; left; exact ⟨m, s, hm, by simp [ingestLines, hp, updateEvents, h]⟩
      · right; right; exact ⟨f, by simp [ingestLines, hp, updateEvents, h]⟩

theorem ingestLines_cons_point {T : Type} (w : World T) (out l : Str) (rest : List Str)
    (tree : T) (p : Point3d) (h : parseLine w.stof l = .point p) :
    ingestLines w out (l :: rest) tree =
      { events := .updateNode p true (w.updateNode tree p true).2 ::
          (ingestLines w out rest (w.updateNode tree p true).1).events,
        outcome := (ingestLines w out rest (w.updateNode tree p true).1).outcome } := by
  simp only [ingestLines, h]

theorem ingestLines_records {T : Type} (w : World T) (out : Str)
    (recs : List ((Str × Str × Str) × Point3d)) (rest : List Str)
    (h : ∀ r ∈ recs, parseLine w.stof (renderRecord r.1) = .point r.2) (tree : T) :
    ingestLines w out (recs.map (fun r => renderRecord r.1) ++ rest) tree =
      { events := updateEvents w tree (recs.map Prod.snd) ++
          (ingestLines w out rest (updateTree w tree (recs.map Prod.snd))).events,
        outcome := (ingestLines w out rest (updateTree w tree (recs.map Prod.snd))).outcome } := by
  induction recs generalizing tree with
  | nil => simp [updateEvents, updateTree]
  | cons r recs ih =>
    have hr := h r (List.mem_cons_self _ _)
    have ih' := ih (fun r' hr' => h r' (List.mem_cons_of_mem _ hr')) (w.updateNode tree r.2 true).1
    show ingestLines w out (renderRecord r.1 :: (recs.map (fun r => renderRecord r.1) ++ rest))
      tree = _
    rw [ingestLines_cons_point w out _ _ tree r.2 hr, ih']
    simp only [List.map_cons, updateEvents, updateTree, List.cons_append]

theorem ingestLines_updates {T : Type} (w : World T) (out : Str) (ls : List Str) (tree : T) :
    ∀ pc ∈ updateCalls (ingestLines w out ls tree).events,
      pc.2 = true ∧ ∃ line ∈ ls, parseLine w.stof line = .point pc.1 := by
  induction ls generalizing tree with
  | nil => simp [ingestLines, finish, updateCalls]
  | cons l ls ih =>
    intro pc hpc
    cases hp : parseLine w.stof l with
    | exit m s => simp [ingestLines, hp, updateCalls] at hpc
    | fault f => simp [ingestLines, hp, updateCalls] at hpc
    | point p =>
      simp only [ingestLines, hp, updateCalls, List.mem_cons] at hpc
      rcases hpc with rfl | hpc
      · exact ⟨rfl, l, List.mem_cons_self _ _, hp⟩
      · obtain ⟨h1, line, hl, h2⟩ := ih _ pc hpc
        exact ⟨h1, line, List.mem_cons_of_mem _ hl, h2⟩

theorem ingestLines_withTree {T U : Type} (w : World T) (newTree : U)
    (updateNode : U → Point3d → Bool → U × Bool) (out : Str) (ls : List Str) (t : T) (u : U) :
    (ingestLines (w.withTree newTree updateNode) out ls u).events.map Event.forgetResult
      = (ingestLines w out ls t).events.map Event.forgetResult ∧
    (ingestLines (w.withTree newTree updateNode) out ls u).outcome
      = (ingestLines w out ls t).outcome := by
  induction ls generalizing t u with
  | nil => exact ⟨rfl, rfl⟩
  | cons l ls ih =>
    have hs : (w.withTree newTree updateNode).stof = w.stof := rfl
    cases hp : parseLine w.stof l with
    | exit m s => simp [ingestLines, hs, hp]
    | fault f => simp [ingestLines, hs, hp]
    | point p =>
      have := ih (w.updateNode t p true).1 ((w.withTree newTree updateNode).updateNode u p true).1
      simp only [ingestLines, hs, hp, List.map_cons, Event.forgetResult, this.1, this.2,
        and_self]

/-! ## Runs of main -/

theorem main_never_outOfFuel {T : Type} (w : World T) (argv : List Str) :
    (main w argv).outcome ≠ .outOfFuel := by
  rcases main_cases w argv with h | h | ⟨content, h⟩
  · rw [h]; simp
  · rw [h]; simp
  · rw [main_of_opens w argv content h]
    obtain ⟨ps, h | ⟨m, s, _, h⟩ | ⟨f, h⟩⟩ := ingestLines_shape w
      ((construct argv).flag_arguments.index outFlag) (fileLines content).tail w.newTree <;>
    · rw [h]; simp

/-- C1. Order of the calls on the tree in a run of `main`. The calls on the tree are
a sequence of `updateNode(p, true)` calls followed either by exactly
`toMaxLikelihood`, `updateInnerOccupancy`, `writeBinary` on the `--out` path, in this
order, in a run that returns 0; or by nothing, in a run that returns a negative status
or ends in a fault. So every update precedes the one `toMaxLikelihood` call, no update
follows it, and no run with a negative status calls `writeBinary`. -/
theorem C1_order_of_tree_calls {T : Type} (w : World T) (argv : List Str) :
    ∃ ups : List Event, (∀ e ∈ ups, ∃ p r, e = Event.updateNode p true r) ∧
      (((main w argv).events.filter Event.isTreeCall =
            ups ++ [.toMaxLikelihood, .updateInnerOccupancy,
              .writeBinary ((construct argv).get_flag_arguments.index outFlag)] ∧
          (main w argv).outcome = .returned 0) ∨
        ((main w argv).events.filter Event.isTreeCall = ups ∧
          ((∃ s : Int, s < 0 ∧ (main w argv).outcome = .returned s) ∨
            ∃ f, (main w argv).outcome = .terminated f))) := by
  rcases main_cases w argv with h | h | ⟨content, h⟩
  · refine ⟨[], by simp, Or.inr ?_⟩
    rw [h]
    exact ⟨by simp [Event.isTreeCall], Or.inl ⟨-1, by decide, rfl⟩⟩
  · refine ⟨[], by simp, Or.inr ?_⟩
    rw [h]
    exact ⟨by simp [Event.isTreeCall], Or.inl ⟨-1, by decide, rfl⟩⟩
  · rw [main_of_opens w argv content h]
    obtain ⟨ps, hs⟩ := ingestLines_shape w
      ((construct argv).flag_arguments.index outFlag) (fileLines content).tail w.newTree
    refine ⟨updateEvents w w.newTree ps, mem_updateEvents w _ ps, ?_⟩
    rcases hs with hs | ⟨m, s, hm, hs⟩ | ⟨f, hs⟩
    · left
      rw [hs]
      simp [List.filter_cons, List.filter_append, filter_treeCall_updateEvents, finish,
        Event.isTreeCall, get_flag_arguments]
    · right
      rw [hs]
      refine ⟨by simp [List.filter_cons, List.filter_append, filter_treeCall_updateEvents,
        Event.isTreeCall], Or.inl ⟨s, ?_, rfl⟩⟩
      rcases hm with ⟨_, rfl⟩ | ⟨_, rfl⟩ <;> decide
    · right
      rw [hs]
      exact ⟨by simp [List.filter_cons, filter_treeCall_updateEvents, Event.isTreeCall],
        Or.inr ⟨f, rfl⟩⟩

/-- C2, as stated, fails: the file `1,2,3` has one line, a well-formed record, and the
run makes no `updateNode` call (not one). -/
theorem C2_first_line_is_skipped :
    fileLines "1,2,3\n".toList = [renderRecord ("1".toList, "2".toList, "3".toList)] ∧
    WellFormed refStof
      (("1".toList, "2".toList, "3".toList), (Flt.ofNat 1, Flt.ofNat 2, Flt.ofNat 3)) ∧
    updateCalls (main (sampleWorld "1,2,3\n") sampleArgv).events = [] ∧
    (updateCalls (main (sampleWorld "1,2,3\n") sampleArgv).events).length ≠
      (fileLines "1,2,3\n".toList).length := by
  refine ⟨by decide, ⟨by decide, by decide, rfl, rfl, rfl⟩, by decide, by decide⟩

/-- C2, amended. The first line of the input file is skipped whatever it holds. When
every line after it is a well-formed record, `main` opens the file, calls
`updateNode(p, true)` once per line after the first, in file order, with the
coordinates `stof` reads from that line, then finishes and returns 0: a file of `n`
lines gives `n - 1` calls. -/
theorem C2_one_update_per_data_line {T : Type} (w : World T) (argv : List Str)
    (content hdr : Str) (recs : List ((Str × Str × Str) × Point3d))
    (hopen : Opens w argv content)
    (hlines : fileLines content = hdr :: recs.map (fun r => renderRecord r.1))
    (hwf : ∀ r ∈ recs, WellFormed w.stof r) :
    main w argv =
      { events := .ifstream ((construct argv).get_flag_arguments.index xyzFlag) ::
          (updateEvents w w.newTree (recs.map Prod.snd) ++
            (finish ((construct argv).get_flag_arguments.index outFlag)).events),
        outcome := .returned 0 } ∧
    updateCalls (main w argv).events = recs.map (fun r => (r.2, true)) ∧
    (updateCalls (main w argv).events).length + 1 = (fileLines content).length := by
  have hparse : ∀ r ∈ recs, parseLine w.stof (renderRecord r.1) = .point r.2 := by
    intro r hr
    obtain ⟨hx, hy, sx, sy, sz⟩ := hwf r hr
    have hmem : renderRecord r.1 ∈ fileLines content := by
      rw [hlines]
      exact List.mem_cons_of_mem _ (List.mem_map.2 ⟨r, hr, rfl⟩)
    have hnl := fileLines_no_newline content _ hmem
    have hz : '\n' ∉ r.1.2.2 := by
      intro hh; apply hnl; simp [renderRecord, hh]
    exact parseLine_record w.stof r.1.1 r.1.2.1 r.1.2.2 r.2.1 r.2.2.1 r.2.2.2 hx hy hz sx sy sz
  have hrun := ingestLines_records w ((construct argv).flag_arguments.index outFlag) recs []
    hparse w.newTree
  rw [List.append_nil] at hrun
  have hmain : main w argv =
      { events := .ifstream ((construct argv).get_flag_arguments.index xyzFlag) ::
          (updateEvents w w.newTree (recs.map Prod.snd) ++
            (finish ((construct argv).get_flag_arguments.index outFlag)).events),
        outcome := .returned 0 } := by
    rw [main_of_opens w argv content hopen, hlines, List.tail_cons, hrun]
    simp [ingestLines, finish, get_flag_arguments]
  have hcalls : updateCalls (main w argv).events = recs.map (fun r => (r.2, true)) := by
    rw [hmain]
    simp [updateCalls, updateCalls_append, updateCalls_updateEvents, finish]
  refine ⟨hmain, hcalls, ?_⟩
  rw [hcalls, hlines]
  simp

/-- C2 (amended) at the file `x,y,z`, `1,2,3`, `4,5,6`. -/
theorem C2_one_update_per_data_line_witness :
    updateCalls (main (sampleWorld "x,y,z\n1,2,3\n4,5,6\n") sampleArgv).events =
      [((Flt.ofNat 1, Flt.ofNat 2, Flt.ofNat 3), true),
       ((Flt.ofNat 4, Flt.ofNat 5, Flt.ofNat 6), true)] :=
  (C2_one_update_per_data_line (sampleWorld "x,y,z\n1,2,3\n4,5,6\n") sampleArgv
    "x,y,z\n1,2,3\n4,5,6\n".toList "x,y,z".toList
    [(("1".toList, "2".toList, "3".toList), (Flt.ofNat 1, Flt.ofNat 2, Flt.ofNat 3)),
     (("4".toList, "5".toList, "6".toList), (Flt.ofNat 4, Flt.ofNat 5, Flt.ofNat 6))]
    ⟨by decide, by decide, by decide⟩ (by decide)
    (by
      intro r hr
      simp only [List.mem_cons, List.mem_singleton, List.not_mem_nil, or_false] at hr
      rcases hr with rfl | rfl <;>
        exact ⟨by decide, by decide, rfl, rfl, rfl⟩)).2.1

theorem printed_map_forgetResult (es : List Event) :
    printed (es.map Event.forgetResult) = printed es := by
  induction es with
  | nil => rfl
  | cons e es ih => cases e <;> simp [printed, Event.forgetResult, ih]

theorem ingest_withTree {T U : Type} (w : World T) (newTree : U)
    (updateNode : U → Point3d → Bool → U × Bool) (inPath outPath : Str) :
    (ingest (w.withTree newTree updateNode) inPath outPath).events.map Event.forgetResult
      = (ingest w inPath outPath).events.map Event.forgetResult ∧
    (ingest (w.withTree newTree updateNode) inPath outPath).outcome
      = (ingest w inPath outPath).outcome := by
  cases hr : w.readFile inPath with
  | none =>
    have hr' : (w.withTree newTree updateNode).readFile inPath = none := hr
    simp [ingest, hr, hr']
  | some content =>
    have hr' : (w.withTree newTree updateNode).readFile inPath = some content := hr
    rw [ingest_of_readFile _ _ _ _ hr, ingest_of_readFile _ _ _ _ hr']
    have := ingestLines_withTree w newTree updateNode outPath (fileLines content).tail
      w.newTree (w.withTree newTree updateNode).newTree
    simp only [List.map_cons, Event.forgetResult, this.1, this.2, and_self]

/-- C4, as stated, fails: in the file `x,y,z`, `nan,0,inf` the fields `nan` and `inf`
are read by `stof` as a NaN and an infinity, and the point that holds them is passed to
`updateNode`. -/
theorem C4_nan_reaches_updateNode :
    updateCalls (main (sampleWorld "x,y,z\nnan,0,inf\n") sampleArgv).events =
      [((Flt.nan false, Flt.ofNat 0, Flt.inf false), true)] ∧
    (Flt.nan false).isFinite = false ∧ (Flt.inf false).isFinite = false := by
  refine ⟨by decide, rfl, rfl⟩

/-- C4, amended. `main` makes no finiteness check of its own: every point passed to
`updateNode` consists of the three values `stof` returned for the three fields of one
line after the first. So the points are finite whenever `stof` reads no field of those
lines as a NaN or an infinity, and only then is a non-finite coordinate kept out. -/
theorem C4_points_are_stof_values {T : Type} (w : World T) (argv : List Str) (content : Str)
    (hopen : Opens w argv content) :
    (∀ pc ∈ updateCalls (main w argv).events, ∃ line ∈ (fileLines content).tail,
      w.stof (lineFields line).1 = .ok pc.1.1 ∧
      w.stof (lineFields line).2.1 = .ok pc.1.2.1 ∧
      w.stof (lineFields line).2.2 = .ok pc.1.2.2) ∧
    ((∀ line ∈ (fileLines content).tail, ∀ v,
        (w.stof (lineFields line).1 = .ok v ∨ w.stof (lineFields line).2.1 = .ok v ∨
          w.stof (lineFields line).2.2 = .ok v) → v.isFinite = true) →
      ∀ pc ∈ updateCalls (main w argv).events,
        pc.1.1.isFinite = true ∧ pc.1.2.1.isFinite = true ∧ pc.1.2.2.isFinite = true) := by
  have key : ∀ pc ∈ updateCalls (main w argv).events, ∃ line ∈ (fileLines content).tail,
      w.stof (lineFields line).1 = .ok pc.1.1 ∧
      w.stof (lineFields line).2.1 = .ok pc.1.2.1 ∧
      w.stof (lineFields line).2.2 = .ok pc.1.2.2 := by
    intro pc hpc
    rw [main_of_opens w argv content hopen] at hpc
    simp only [updateCalls] at hpc
    obtain ⟨_, line, hl, hp⟩ := ingestLines_updates w _ _ _ pc hpc
    exact ⟨line, hl, parseLine_point w.stof line pc.1 hp⟩
  refine ⟨key, ?_⟩
  intro hfin pc hpc
  obtain ⟨line, hl, h1, h2, h3⟩ := key pc hpc
  exact ⟨hfin line hl _ (Or.inl h1), hfin line hl _ (Or.inr (Or.inl h2)),
    hfin line hl _ (Or.inr (Or.inr h3))⟩

/-- C4 (amended) at the file `x,y,z`, `1,2,3`: its one point is finite. -/
theorem C4_points_are_stof_values_witness :
    (updateCalls (main (sampleWorld "x,y,z\n1,2,3\n") sampleArgv).events).all
      (fun pc => pc.1.1.isFinite && pc.1.2.1.isFinite && pc.1.2.2.isFinite) = true :=
  have hfinite :=
  (C4_points_are_stof_values (sampleWorld "x,y,z\n1,2,3\n") sampleArgv "x,y,z\n1,2,3\n".toList
    ⟨by decide, by decide, by decide⟩).2
    (by
      intro line hl v hv
      have hline : line = "1,2,3".toList := by
        have : (fileLines "x,y,z\n1,2,3\n".toList).tail = ["1,2,3".toList] := by decide
        rw [this] at hl
        simpa using hl
      subst hline
      have h1 : (sampleWorld "x,y,z\n1,2,3\n").stof (lineFields "1,2,3".toList).1
          = .ok (Flt.ofNat 1) := rfl
      have h2 : (sampleWorld "x,y,z\n1,2,3\n").stof (lineFields "1,2,3".toList).2.1
          = .ok (Flt.ofNat 2) := rfl
      have h3 : (sampleWorld "x,y,z\n1,2,3\n").stof (lineFields "1,2,3".toList).2.2
          = .ok (Flt.ofNat 3) := rfl
      rw [h1, h2, h3] at hv
      rcases hv with h | h | h <;> cases h <;> rfl)
  List.all_eq_true.2 fun pc hpc => by simpa [Bool.and_assoc] using hfinite pc hpc

/-- C5, as stated, fails: `updateNode` rejects the point of the file `x,y,z`,
`400000,0,0` (no node is returned), and the run prints and returns exactly what the run
over the same file does with a library that accepts every point. -/
theorem C5_rejected_update_is_silent :
    main (sampleWorld "x,y,z\n400000,0,0\n") sampleArgv =
      { events := [.ifstream "in.csv".toList,
          .updateNode (Flt.ofNat 400000, Flt.ofNat 0, Flt.ofNat 0) true false,
          .toMaxLikelihood, .updateInnerOccupancy, .writeBinary "map.bt".toList,
          .cout "\n".toList],
        outcome := .returned 0 } ∧
    main ((sampleWorld "x,y,z\n400000,0,0\n").withTree ([] : List Point3d)
        (fun t p _ => (t ++ [p], true))) sampleArgv =
      { events := [.ifstream "in.csv".toList,
          .updateNode (Flt.ofNat 400000, Flt.ofNat 0, Flt.ofNat 0) true true,
          .toMaxLikelihood, .updateInnerOccupancy, .writeBinary "map.bt".toList,
          .cout "\n".toList],
        outcome := .returned 0 } := by
  refine ⟨by decide, by decide⟩

/-- C5, amended. `main` never looks at what `updateNode` returns: with the same command
line, files and `stof`, the run makes the same calls with the same arguments, prints
the same texts and ends the same way whatever the octomap library answers. A rejected
point is therefore not reported. -/
theorem C5_update_result_ignored {T U : Type} (w : World T) (newTree : U)
    (updateNode : U → Point3d → Bool → U × Bool) (argv : List Str) :
    (main (w.withTree newTree updateNode) argv).events.map Event.forgetResult
      = (main w argv).events.map Event.forgetResult ∧
    printed (main (w.withTree newTree updateNode) argv).events = printed (main w argv).events ∧
    (main (w.withTree newTree updateNode) argv).outcome = (main w argv).outcome := by
  have h : (main (w.withTree newTree updateNode) argv).events.map Event.forgetResult
      = (main w argv).events.map Event.forgetResult ∧
      (main (w.withTree newTree updateNode) argv).outcome = (main w argv).outcome := by
    unfold main
    simp only
    split
    · exact ⟨rfl, rfl⟩
    · exact ingest_withTree w newTree updateNode _ _
  refine ⟨h.1, ?_, h.2⟩
  rw [← printed_map_forgetResult, h.1, printed_map_forgetResult]

/-- C6, as stated, fails: the data line `1e39` holds one numeric field and no comma, and
the data line `5,1e39` two numeric fields separated by one comma, but `1e39` lies beyond
the range of `float`. `std::stof` throws `std::out_of_range` at line 116 (at line 125
for the second field) before the stream is tested, nothing catches it, and the run ends
in that fault without printing, instead of printing `Could not get y` (`Could not get
z`) and returning -3 (-4). -/
theorem C6_numeric_field_out_of_range :
    ',' ∉ "1e39".toList ∧ refStof "1e39".toList = .error .out_of_range ∧
    refStof "5".toList = .ok (Flt.ofNat 5) ∧
    main (sampleWorld "x,y,z\n1e39\n") sampleArgv =
      { events := [.ifstream "in.csv".toList], outcome := .terminated .out_of_range } ∧
    main (sampleWorld "x,y,z\n5,1e39\n") sampleArgv =
      { events := [.ifstream "in.csv".toList], outcome := .terminated .out_of_range } ∧
    (main (sampleWorld "x,y,z\n1e39\n") sampleArgv).outcome ≠ .returned (-3) ∧
    (main (sampleWorld "x,y,z\n5,1e39\n") sampleArgv).outcome ≠ .returned (-4) := by
  refine ⟨by decide, rfl, rfl, by decide, by decide, by decide, by decide⟩

/-- C6, amended. A record with missing fields, each of which `std::stof` converts, stops
the run. Let the lines before it, after the first line of the file, be well-formed
records. If the next line is one field without a comma that `stof` converts to a
`float`, the run is: open the file, one `updateNode` per earlier record, print `Could
not get y`, return -3. If it is two such fields separated by one comma, the run ends
alike with `Could not get z` and -4. In both cases the line gives no `updateNode` call,
whatever follows it in the file is not read, and `writeBinary` is not called. -/
theorem C6_missing_fields {T : Type} (w : World T) (argv : List Str) (content hdr : Str)
    (recs : List ((Str × Str × Str) × Point3d)) (later : List Str)
    (hopen : Opens w argv content) (hwf : ∀ r ∈ recs, WellFormed w.stof r) :
    (∀ (f : Str) (v : Flt), ',' ∉ f → w.stof f = .ok v →
      fileLines content = hdr :: (recs.map (fun r => renderRecord r.1) ++ f :: later) →
      main w argv =
        { events := .ifstream ((construct argv).get_flag_arguments.index xyzFlag) ::
            (updateEvents w w.newTree (recs.map Prod.snd) ++
              [.cout "Could not get y\n".toList]),
          outcome := .returned (-3) }) ∧
    (∀ (fx fy : Str) (x y : Flt), ',' ∉ fx → ',' ∉ fy → w.stof fx = .ok x → w.stof fy = .ok y →
      fileLines content =
        hdr :: (recs.map (fun r => renderRecord r.1) ++ (fx ++ ',' :: fy) :: later) →
      main w argv =
        { events := .ifstream ((construct argv).get_flag_arguments.index xyzFlag) ::
            (updateEvents w w.newTree (recs.map Prod.snd) ++
              [.cout "Could not get z\n".toList]),
          outcome := .returned (-4) }) := by
  have hparse : ∀ bad : Str,
      fileLines content = hdr :: (recs.map (fun r => renderRecord r.1) ++ bad :: later) →
      ∀ r ∈ recs, parseLine w.stof (renderRecord r.1) = .point r.2 := by
    intro bad hlines r hr
    obtain ⟨hx, hy, sx, sy, sz⟩ := hwf r hr
    have hmem : renderRecord r.1 ∈ fileLines content := by
      rw [hlines]
      exact List.mem_cons_of_mem _ (List.mem_append_left _ (List.mem_map.2 ⟨r, hr, rfl⟩))
    have hnl := fileLines_no_newline content _ hmem
    have hz : '\n' ∉ r.1.2.2 := by
      intro hh; apply hnl; simp [renderRecord, hh]
    exact parseLine_record w.stof r.1.1 r.1.2.1 r.1.2.2 r.2.1 r.2.2.1 r.2.2.2 hx hy hz sx sy sz
  have hrun : ∀ (bad msg : Str) (s : Int),
      fileLines content = hdr :: (recs.map (fun r => renderRecord r.1) ++ bad :: later) →
      parseLine w.stof bad = .exit msg s →
      main w argv =
        { events := .ifstream ((construct argv).get_flag_arguments.index xyzFlag) ::
            (updateEvents w w.newTree (recs.map Prod.snd) ++ [.cout msg]),
          outcome := .returned s } := by
    intro bad msg s hlines hbad
    rw [main_of_opens w argv content hopen, hlines, List.tail_cons,
      ingestLines_records w _ recs (bad :: later) (hparse bad hlines) w.newTree]
    simp [ingestLines, hbad, get_flag_arguments]
  constructor
  · intro f v hf sf hlines
    exact hrun f _ _ hlines (parseLine_one_field w.stof f v hf sf)
  · intro fx fy x y hx hy sx sy hlines
    exact hrun _ _ _ hlines (parseLine_two_fields w.stof fx fy x y hx hy sx sy)

/-- C6 (amended) at the files `x,y,z`, `1,2,3`, `5`, `7,8,9` and `x,y,z`, `1,2,3`, `5,6`,
`7,8,9`. -/
theorem C6_missing_fields_witness :
    main (sampleWorld "x,y,z\n1,2,3\n5\n7,8,9\n") sampleArgv =
      { events := [.ifstream "in.csv".toList,
          .updateNode (Flt.ofNat 1, Flt.ofNat 2, Flt.ofNat 3) true true,
          .cout "Could not get y\n".toList],
        outcome := .returned (-3) } ∧
    main (sampleWorld "x,y,z\n1,2,3\n5,6\n7,8,9\n") sampleArgv =
      { events := [.ifstream "in.csv".toList,
          .updateNode (Flt.ofNat 1, Flt.ofNat 2, Flt.ofNat 3) true true,
          .cout "Could not get z\n".toList],
        outcome := .returned (-4) } :=
  ⟨(C6_missing_fields (sampleWorld "x,y,z\n1,2,3\n5\n7,8,9\n") sampleArgv
      "x,y,z\n1,2,3\n5\n7,8,9\n".toList "x,y,z".toList
      [(("1".toList, "2".toList, "3".toList), (Flt.ofNat 1, Flt.ofNat 2, Flt.ofNat 3))]
      ["7,8,9".toList] ⟨by decide, by decide, by decide⟩
      (by
        intro r hr
        simp only [List.mem_singleton] at hr
        subst hr
        exact ⟨by decide, by decide, rfl, rfl, rfl⟩)).1
      "5".toList (Flt.ofNat 5) (by decide) rfl (by decide),
   (C6_missing_fields (sampleWorld "x,y,z\n1,2,3\n5,6\n7,8,9\n") sampleArgv
      "x,y,z\n1,2,3\n5,6\n7,8,9\n".toList "x,y,z".toList
      [(("1".toList, "2".toList, "3".toList), (Flt.ofNat 1, Flt.ofNat 2, Flt.ofNat 3))]
      ["7,8,9".toList] ⟨by decide, by decide, by decide⟩
      (by
        intro r hr
        simp only [List.mem_singleton] at hr
        subst hr
        exact ⟨by decide, by decide, rfl, rfl, rfl⟩)).2
      "5".toList "6".toList (Flt.ofNat 5) (Flt.ofNat 6) (by decide) (by decide) rfl rfl
      (by decide)⟩

/-- C7 on the code. No run of `main` returns -2: the check `!ss.good()` at line 107
tests a string stream that was just constructed, which is always good. On an empty
line, and on a line whose first field is not a number, `std::stof` throws
`std::invalid_argument`, nothing catches it, and the run ends in that fault without
printing anything. -/
theorem C7_status_minus_two_unreachable :
    (∀ (T : Type) (w : World T) (argv : List Str), (main w argv).outcome ≠ .returned (-2)) ∧
    main (sampleWorld "x,y,z\n\n") sampleArgv =
      { events := [.ifstream "in.csv".toList], outcome := .terminated .invalid_argument } ∧
    main (sampleWorld "x,y,z\nabc,1,2\n") sampleArgv =
      { events := [.ifstream "in.csv".toList], outcome := .terminated .invalid_argument } := by
  refine ⟨?_, by decide, by decide⟩
  intro T w argv
  rcases main_cases w argv with h | h | ⟨content, h⟩
  · rw [h]; simp
  · rw [h]; simp
  · rw [main_of_opens w argv content h]
    obtain ⟨ps, h | ⟨m, s, hm, h⟩ | ⟨f, h⟩⟩ := ingestLines_shape w
      ((construct argv).flag_arguments.index outFlag) (fileLines content).tail w.newTree
    · rw [h]; simp
    · rw [h]
      rcases hm with ⟨_, rfl⟩ | ⟨_, rfl⟩ <;> simp
    · rw [h]; simp

end PointCloudReader
